import Mathlib

/-!
Verification of the Gunrock GPU graph-processing library against its
natural-language specification.

The development shallowly embeds the host-side control flow and the
device functors of the repository:

* `gunrock/app/bfs/bfs_problem.cuh` — `BFSProblem::DataSlice::Reset`,
  `BFSProblem::Extract`, and the `binary_search` helper of the Top-K driver
  appended to that file;
* `gunrock/app/bfs/bfs_functor.cuh` — `BFSFunctor::CondEdge/ApplyEdge/
  CondFilter`;
* `gunrock/app/pr/pr_functor.cuh` — `PRFunctor::CondFilter`;
* `gunrock/app/hits/hits_problem.cuh` — `HITSProblem::Extract/Reset`
  (and `BCProblem::Extract`, same file);
* `gunrock/app/salsa/salsa_enactor.cuh` — `SALSAEnactor::EnactSALSA` and
  `SALSAEnactor::NormalizeRank`.

Device-side machine integers (32-bit signed `VertexId`) are modelled as
`Int` with the explicit 32-bit extreme values spelled out; floating-point
rank values (`Value`) are modelled as exact rationals, which preserves the
comparison and update structure of the filter conditions.  Kernels that
only fill, copy or index-initialise arrays are modelled as the
corresponding total functions on lists/functions.
-/

/-- CUDA error codes, as far as the modelled fragments distinguish them.
`success` is `cudaSuccess`; `errorMemoryAllocation` is the allocation
failure kind; `errorQueueOverflow` stands for the (spec-mandated) frontier
overflow error kind, distinct from allocation failure;
`errorInvalidDevice` and `errorUnknown` are device-operation failures. -/
inductive cudaError where
  | success
  | errorMemoryAllocation
  | errorQueueOverflow
  | errorInvalidDevice
  | errorUnknown
  deriving DecidableEq, Repr

/-- Embedding of `util::GRError(e, msg, file, line)`: it prints the message
and returns the error code unchanged, so as a condition it is truthy
exactly when the operation failed. -/
def grError (e : cudaError) : Bool :=
  e != cudaError.success

/-- Modelled from the spec: `util::MaxValue<VertexId>()` (array_utils /
type utilities, not under src/) is the maximum representable `VertexId`
value; for the 32-bit signed `VertexId` used throughout, `2^31 - 1`. -/
def maxValueVertexId : Int := 2147483647

/-- Value written into every entry of `labels` by
`BFSProblem::DataSlice::Reset` (bfs_problem.cuh line 171):
`_ENABLE_IDEMPOTENCE ? (VertexId)-1 : (util::MaxValue<VertexId>()-1)`. -/
def bfsSentinel (enable_idempotence : Bool) : Int :=
  if enable_idempotence then -1 else maxValueVertexId - 1

/-- Contents of the device `labels` array after
`BFSProblem::DataSlice::Reset`: `MemsetKernel` fills all `nodes` entries
with the sentinel. -/
def bfsResetLabels (enable_idempotence : Bool) (nodes : Nat) : List Int :=
  List.replicate nodes (bfsSentinel enable_idempotence)

/-- Contents of the device `preds` array after
`BFSProblem::DataSlice::Reset` when `_MARK_PREDECESSORS` is set:
`MemsetKernel` fills all `nodes` entries with `(VertexId)-2`
(bfs_problem.cuh line 180). -/
def bfsResetPreds (nodes : Nat) : List Int :=
  List.replicate nodes (-2)

/-- Embedding of the single-GPU path of `BFSProblem::Extract`
(bfs_problem.cuh lines 264-276): the device `labels` and `preds` arrays
are moved verbatim (`Array1D::Move(DEVICE, HOST)`) into the host buffers,
with no transformation. -/
def bfsExtract (labels preds : List Int) : List Int × List Int :=
  (labels, preds)

/-- Embedding of the single-GPU path of `HITSProblem::Extract`
(hits_problem.cuh lines 172-200), as a function of the outcomes of its
three device operations.  The source reads:
`if (util::GRError(cudaSetDevice(gpu_idx[0]), ...)) break;` — note that
this `break` leaves `retval` at its initial `cudaSuccess` — followed by
`if (retval = util::GRError(cudaMemcpy(h_hrank, ...))) break;` and
`if (retval = util::GRError(cudaMemcpy(h_arank, ...))) break;`, and
finally `return retval;`. -/
def hitsExtract (setDevice memcpyHrank memcpyArank : cudaError) : cudaError :=
  if grError setDevice then cudaError.success
  else if grError memcpyHrank then memcpyHrank
  else if grError memcpyArank then memcpyArank
  else cudaError.success

/-- Embedding of the single-GPU path of `BCProblem::Extract`
(hits_problem.cuh lines 670-708): same structure, with
`cudaSetDevice` guarded by a bare `if (util::GRError(...)) break;`
that does not store the error into `retval`, then up to three
`if (retval = util::GRError(cudaMemcpy(...))) break;` copies
(the second and third only when the corresponding host buffer is
non-null). -/
def bcExtract (setDevice memcpyBc memcpyEbc memcpySigma : cudaError)
    (has_ebc has_sigmas : Bool) : cudaError :=
  if grError setDevice then cudaError.success
  else if grError memcpyBc then memcpyBc
  else if has_ebc && grError memcpyEbc then memcpyEbc
  else if has_sigmas && grError memcpySigma then memcpySigma
  else cudaError.success

/-- Allocation status of the device arrays owned by a
`HITSProblem::DataSlice` (hits_problem.cuh lines 52-63): `true` means the
corresponding device pointer is non-null (storage allocated). -/
structure HitsAllocState where
  hrank_curr : Bool
  arank_curr : Bool
  hrank_next : Bool
  arank_next : Bool
  in_degrees : Bool
  out_degrees : Bool
  delta : Bool
  src_node : Bool
  deriving DecidableEq, Repr

/-- Allocation status right after a successful `HITSProblem::Init`
(hits_problem.cuh lines 256-312): every array has been `cudaMalloc`-ed. -/
def hitsInitAlloc : HitsAllocState :=
  ⟨true, true, true, true, true, true, true, true⟩

/-- Allocation effect of `HITSProblem::Reset` (hits_problem.cuh lines
345-428).  Each array is guarded by `if (!data_slices[gpu]->d_...)` before
its `cudaMalloc`, so the first component is the allocation state after
Reset and the second component records which arrays Reset newly
allocated (`true` = a `cudaMalloc` was performed for that array). -/
def hitsResetAlloc (a : HitsAllocState) : HitsAllocState × HitsAllocState :=
  (⟨true, true, true, true, true, true, true, true⟩,
   ⟨!a.hrank_curr, !a.arank_curr, !a.hrank_next, !a.arank_next,
    !a.in_degrees, !a.out_degrees, !a.delta, !a.src_node⟩)

/-- No-allocation record: Reset performed no `cudaMalloc` at all. -/
def hitsNoNewAlloc : HitsAllocState :=
  ⟨false, false, false, false, false, false, false, false⟩

/-- Modelled from the spec: `util::Array1D::Allocate` (array_utils.cuh,
not under src/) allocates device storage for the array only when a prior
allocation is missing, per spec §4.5 ("without re-allocating unless a
prior allocation is missing").  First component: allocated after the
call; second: whether a new allocation was performed. -/
def array1dAllocate (allocated : Bool) : Bool × Bool :=
  (true, !allocated)

/-- Embedding of `PRFunctor::CondFilter` (pr_functor.cuh lines 90-99).
It first stores the damped value
`rank_next[node] = (1.0 - delta) + delta * rank_next[node]`, then
computes `diff = fabs(rank_next[node] - rank_curr[node])` and returns
`diff >= threshold`.  Returns the updated `rank_next` array and the
condition result. -/
def prCondFilter (delta threshold : ℚ) (rank_curr rank_next : Nat → ℚ)
    (node : Nat) : (Nat → ℚ) × Bool :=
  let damped := (1 - delta) + delta * rank_next node
  (fun v => if v = node then damped else rank_next v,
   decide (|damped - rank_curr node| ≥ threshold))

/-- One Filter pass driven by `PRFunctor::CondFilter`: each frontier
element is mapped through the condition (which updates its `rank_next`
entry as a side effect) and the accepted elements are compacted, in
order, into the output frontier (spec §4.3; `PRFunctor::ApplyFilter`
does nothing).  Returns the final `rank_next` array and the surviving
frontier. -/
def prFilterStep (delta threshold : ℚ) (rank_curr : Nat → ℚ) :
    List Nat → (Nat → ℚ) → (Nat → ℚ) × List Nat
  | [], rank_next => (rank_next, [])
  | node :: rest, rank_next =>
      let r := prCondFilter delta threshold rank_curr rank_next node
      let s := prFilterStep delta threshold rank_curr rest r.1
      (s.1, if r.2 then node :: s.2 else s.2)

/-- Device rank state of a `SALSAProblem::DataSlice`: the two ping-pong
pairs (`d_hrank_curr`/`d_hrank_next` and `d_arank_curr`/`d_arank_next`). -/
structure SalsaRanks where
  hrank_curr : Nat → ℚ
  hrank_next : Nat → ℚ
  arank_curr : Nat → ℚ
  arank_next : Nat → ℚ

/-- Modelled from the spec: `util::MemsetCopyVectorKernel`
(memset_kernel.cuh, not under src/) copies `src[i]` into `dst[i]` for
every `i < n`, leaving other entries of `dst` unchanged. -/
def memsetCopyVector (dst src : Nat → ℚ) (n : Nat) : Nat → ℚ :=
  fun i => if i < n then src i else dst i

/-- Modelled from the spec: `util::MemsetKernel` (memset_kernel.cuh, not
under src/) writes the constant `value` into `dst[i]` for every `i < n`. -/
def memsetConst (dst : Nat → ℚ) (value : ℚ) (n : Nat) : Nat → ℚ :=
  fun i => if i < n then value else dst i

/-- Embedding of `SALSAEnactor::NormalizeRank` (salsa_enactor.cuh lines
93-116).  It selects the hub pair when `hub_or_auth == 0` and the
authority pair otherwise, then runs
`MemsetCopyVectorKernel(rank_curr, rank_next, nodes)` followed by
`MemsetKernel(rank_next, 0.0, nodes)`; the unselected pair is not
touched. -/
def normalizeRank (st : SalsaRanks) (hub_or_auth : Int) (nodes : Nat) :
    SalsaRanks :=
  if hub_or_auth = 0 then
    { st with
      hrank_curr := memsetCopyVector st.hrank_curr st.hrank_next nodes,
      hrank_next := memsetConst st.hrank_next 0 nodes }
  else
    { st with
      arank_curr := memsetCopyVector st.arank_curr st.arank_next nodes,
      arank_next := memsetConst st.arank_next 0 nodes }

/-- Host-visible loop state of `SALSAEnactor::EnactSALSA`:
`enactor_stats.iteration`, `frontier_attribute.queue_length`, and whether
any advance launch so far accepted more outputs than the capacity passed
as its `max_out_queue` argument (the condition the work-progress overflow
flag records; spec §4.2/§7). -/
structure SalsaLoopState where
  iteration : Nat
  queue_length : Nat
  overflow_seen : Bool
  deriving DecidableEq, Repr

/-- One pass of the `while (true)` loop of `EnactSALSA` (salsa_enactor.cuh
lines 319-422): the queue length is reset to `graph_slice->edges`
(line 331) and the frontier refilled by `MemsetIdxKernel`; the two
backward advance kernels are launched with `max_out_queue =
graph_slice->edges` (lines 352 and 393) — their accepted output counts
(spec-modelled, the kernels are not under src/) are given by
`acceptedH`/`acceptedA` as functions of the iteration; then
`enactor_stats.iteration++`. -/
def salsaLoopBody (edges : Nat) (acceptedH acceptedA : Nat → Nat)
    (st : SalsaLoopState) : SalsaLoopState :=
  { iteration := st.iteration + 1,
    queue_length := edges,
    overflow_seen := st.overflow_seen
      || decide (edges < acceptedH st.iteration)
      || decide (edges < acceptedA st.iteration) }

/-- The `while (true)` loop of `EnactSALSA`: run the body, then
`if (enactor_stats.iteration >= max_iteration) break;` — this is the only
termination test in the loop (there is no queue-length or convergence
check).  `fuel` bounds the number of passes so the embedding is total;
`max_iteration < fuel` suffices for the loop to reach its own break. -/
def salsaLoop (edges : Nat) (acceptedH acceptedA : Nat → Nat)
    (max_iteration : Nat) : Nat → SalsaLoopState → SalsaLoopState
  | 0, st => st
  | fuel + 1, st =>
      if max_iteration ≤ (salsaLoopBody edges acceptedH acceptedA st).iteration
      then salsaLoopBody edges acceptedH acceptedA st
      else salsaLoop edges acceptedH acceptedA max_iteration fuel
        (salsaLoopBody edges acceptedH acceptedA st)

/-- Embedding of `SALSAEnactor::EnactSALSA` (salsa_enactor.cuh lines
160-432) restricted to runs where every device operation succeeds:
`enactor_stats.iteration` starts at 0 (EnactorStats counters are reset at
`Setup`, spec §3), `frontier_attribute.queue_length` is set to
`graph_slice->edges` before the loop (line 312), the loop runs, and the
function returns `retval`, which is still `cudaSuccess` — the overflow
flag is never consulted: line 426 reads `//Check overflow ignored here`. -/
def enactSALSA (edges max_iteration fuel : Nat)
    (acceptedH acceptedA : Nat → Nat) : cudaError × SalsaLoopState :=
  (cudaError.success,
   salsaLoop edges acceptedH acceptedA max_iteration fuel
     { iteration := 0, queue_length := edges, overflow_seen := false })

/-- Embedding of the `binary_search` helper in the Top-K driver appended
to bfs_problem.cuh (lines 474-487): classic inclusive-range binary search
returning `arr[mid]` (which equals `val`) on a hit and `-1` once
`left > right`.  Array reads `arr[mid]` become `List.getD` at `mid.toNat`
(in every recursive call `0 ≤ left ≤ mid` whenever the read happens, so
`toNat` is faithful to C pointer indexing). -/
def binary_search (arr : List Int) (val : Int) (left right : Int) : Int :=
  if h : left ≤ right then
    let mid := left + (right - left) / 2
    if arr.getD mid.toNat 0 = val then arr.getD mid.toNat 0
    else if arr.getD mid.toNat 0 > val then binary_search arr val left (mid - 1)
    else binary_search arr val (mid + 1) right
  else -1
termination_by (right + 1 - left).toNat
decreasing_by
  · have h1 : (right - left) / 2 ≤ right - left := Int.ediv_le_self _ (by omega)
    omega
  · have h0 : 0 ≤ (right - left) / 2 := Int.ediv_nonneg (by omega) (by omega)
    have h1 : (right - left) / 2 ≤ right - left := Int.ediv_le_self _ (by omega)
    omega

/-! ## Helper lemmas -/

/-- Entries of a replicated device array. -/
theorem getD_replicate_of_lt (n v : Nat) (a : Int) (h : v < n) :
    (List.replicate n a).getD v 0 = a := by
  simp [List.getD, List.getElem?_replicate, h]

/-- The SALSA iteration loop exits with `iteration = max max_iteration
(st.iteration + 1)` and with the queue length reset to `edges`, provided
the fuel outlasts the remaining iterations. -/
theorem salsaLoop_exit (edges : Nat) (aH aA : Nat → Nat) (max_iteration : Nat) :
    ∀ fuel st, 1 ≤ fuel → max_iteration ≤ st.iteration + fuel →
      (salsaLoop edges aH aA max_iteration fuel st).iteration
          = max max_iteration (st.iteration + 1)
      ∧ (salsaLoop edges aH aA max_iteration fuel st).queue_length = edges := by
  intro fuel
  induction fuel with
  | zero => intro st h1 _; omega
  | succ f ih =>
      intro st _ h2
      rw [salsaLoop]
      by_cases hb : max_iteration ≤ (salsaLoopBody edges aH aA st).iteration
      · rw [if_pos hb]
        have hb' : max_iteration ≤ st.iteration + 1 := by
          simpa [salsaLoopBody] using hb
        exact ⟨by simp [salsaLoopBody]; omega, by simp [salsaLoopBody]⟩
      · rw [if_neg hb]
        have hb' : ¬ max_iteration ≤ st.iteration + 1 := by
          simpa [salsaLoopBody] using hb
        have hf : 1 ≤ f := by omega
        have h3 := ih (salsaLoopBody edges aH aA st) hf
          (by simp [salsaLoopBody]; omega)
        refine ⟨?_, h3.2⟩
        rw [h3.1]
        simp [salsaLoopBody]
        omega

/-- Vertices not in the processed frontier keep their `rank_next` entry. -/
theorem prFilterStep_apply_not_mem (delta threshold : ℚ) (rc : Nat → ℚ) :
    ∀ (l : List Nat) (rn : Nat → ℚ) (v : Nat), v ∉ l →
      (prFilterStep delta threshold rc l rn).1 v = rn v := by
  intro l
  induction l with
  | nil => intro rn v _; rfl
  | cons node rest ih =>
      intro rn v hv
      have hvn : v ≠ node := fun h => hv (h ▸ List.mem_cons_self node rest)
      have hvr : v ∉ rest := fun h => hv (List.mem_cons_of_mem node h)
      show (prFilterStep delta threshold rc rest _).1 v = rn v
      rw [ih _ v hvr]
      simp [prCondFilter, hvn]

/-- Every survivor of the PageRank filter pass has a post-damping rank
difference of at least the threshold. -/
theorem prFilterStep_mem_ge (delta threshold : ℚ) (rc : Nat → ℚ) :
    ∀ (l : List Nat) (rn : Nat → ℚ), l.Nodup →
      ∀ v ∈ (prFilterStep delta threshold rc l rn).2,
        threshold ≤ |(prFilterStep delta threshold rc l rn).1 v - rc v| := by
  intro l
  induction l with
  | nil => intro rn _ v hv; simp [prFilterStep] at hv
  | cons node rest ih =>
      intro rn hnd v hv
      have hnode : node ∉ rest := (List.nodup_cons.mp hnd).1
      have hrest : rest.Nodup := (List.nodup_cons.mp hnd).2
      show threshold ≤ |(prFilterStep delta threshold rc rest _).1 v - rc v|
      by_cases hcond : (prCondFilter delta threshold rc rn node).2 = true
      · have hv' : v = node ∨ v ∈ (prFilterStep delta threshold rc rest
            (prCondFilter delta threshold rc rn node).1).2 := by
          have hm : v ∈ node :: (prFilterStep delta threshold rc rest
              (prCondFilter delta threshold rc rn node).1).2 := by
            simpa [prFilterStep, hcond] using hv
          simpa using hm
        rcases hv' with rfl | hv'
        · rw [prFilterStep_apply_not_mem delta threshold rc rest _ v hnode]
          have hle : threshold ≤ |((1 - delta) + delta * rn v) - rc v| := by
            simpa [prCondFilter, ge_iff_le] using hcond
          simpa [prCondFilter] using hle
        · exact ih _ hrest v hv'
      · have hv' : v ∈ (prFilterStep delta threshold rc rest
            (prCondFilter delta threshold rc rn node).1).2 := by
          simpa [prFilterStep, hcond] using hv
        exact ih _ hrest v hv'

/-! ## Claims C2 through C8 and C10 -/

/-- C2: the spec requires an Advance whose accepted outputs exceed the
pre-sized frontier capacity to surface an overflow error, distinct from
allocation failure, to the caller.  In the SALSA enactor run modelled
here an advance accepts 2 outputs into a frontier of capacity
`edges = 1` (the N / N+1 scenario with N = 1), yet `EnactSALSA` returns
`cudaSuccess`: the overflow flag is never read — salsa_enactor.cuh line
426 is literally `//Check overflow ignored here`.  This theorem evaluates
the embedded code at that failing input, exhibiting the code bug. -/
theorem C2_salsa_overflow_not_surfaced :
    (enactSALSA 1 1 5 (fun _ => 2) (fun _ => 0)).1 = cudaError.success
  ∧ (enactSALSA 1 1 5 (fun _ => 2) (fun _ => 0)).2.overflow_seen = true
  ∧ cudaError.success ≠ cudaError.errorQueueOverflow
  ∧ cudaError.success ≠ cudaError.errorMemoryAllocation := by
  decide

/-- C4 counterexample: the claim states that at normal loop exit the
frontier is empty or `iteration == max_iteration`.  Running the SALSA
enactor on a graph with one edge and `max_iteration = 0` exits the loop
through its own break with `queue_length = 1 ≠ 0` and
`iteration = 1 ≠ 0 = max_iteration`. -/
theorem C4_counterexample :
    ¬ ((enactSALSA 1 0 5 (fun _ => 0) (fun _ => 0)).2.queue_length = 0
       ∨ (enactSALSA 1 0 5 (fun _ => 0) (fun _ => 0)).2.iteration = 0) := by
  decide

/-- C4 (amended): the only per-iteration termination test in
`EnactSALSA`'s loop is `iteration >= max_iteration` (there is no
queue-length-zero or filter-side convergence test), so at normal loop
exit `iteration = max max_iteration 1` — in particular `iteration =
max_iteration` whenever `max_iteration ≥ 1` — while the queue length is
`edges` (refilled every pass), not 0. -/
theorem C4_salsa_exit_iteration (edges max_iteration fuel : Nat)
    (aH aA : Nat → Nat) (hfuel : max_iteration < fuel) :
    (enactSALSA edges max_iteration fuel aH aA).2.iteration
        = max max_iteration 1
  ∧ (enactSALSA edges max_iteration fuel aH aA).2.queue_length = edges
  ∧ (1 ≤ max_iteration →
      (enactSALSA edges max_iteration fuel aH aA).2.iteration
        = max_iteration) := by
  have h := salsaLoop_exit edges aH aA max_iteration fuel
    { iteration := 0, queue_length := edges, overflow_seen := false }
    (by omega) (by show max_iteration ≤ 0 + fuel; omega)
  have h1 : (enactSALSA edges max_iteration fuel aH aA).2.iteration
      = max max_iteration 1 := by simpa [enactSALSA] using h.1
  have h2 : (enactSALSA edges max_iteration fuel aH aA).2.queue_length
      = edges := by simpa [enactSALSA] using h.2
  exact ⟨h1, h2, fun hge => by rw [h1]; omega⟩

/-- C4 witness: a concrete run with `max_iteration = 3` exits with
`iteration = 3` and the queue refilled to the edge count 7. -/
theorem C4_salsa_exit_iteration_witness :
    (enactSALSA 7 3 5 (fun _ => 0) (fun _ => 0)).2.iteration = max 3 1
  ∧ (enactSALSA 7 3 5 (fun _ => 0) (fun _ => 0)).2.queue_length = 7
  ∧ (1 ≤ 3 → (enactSALSA 7 3 5 (fun _ => 0) (fun _ => 0)).2.iteration = 3) :=
  C4_salsa_exit_iteration 7 3 5 (fun _ => 0) (fun _ => 0) (by decide)

/-- C5 counterexample: the claim's BFS instance of the round trip says
the extracted label of the source vertex is 0.  On a 4-node instance
(source 0), Extract-after-Reset yields label `MaxValue<VertexId>() - 1 =
2147483646` at the source in the default mode and `-1` in idempotence
mode — never 0, because `BFSProblem::DataSlice::Reset` fills the whole
`labels` array with the sentinel and does not seed the source. -/
theorem C5_counterexample :
    (bfsExtract (bfsResetLabels false 4) (bfsResetPreds 4)).1.getD 0 0
        = 2147483646
  ∧ (bfsExtract (bfsResetLabels false 4) (bfsResetPreds 4)).1.getD 0 0 ≠ 0
  ∧ (bfsExtract (bfsResetLabels true 4) (bfsResetPreds 4)).1.getD 0 0 = -1 := by
  decide

/-- C5 (amended): `Extract` immediately after `Reset` (zero enactor
iterations) returns exactly the initial values Reset wrote to the device
arrays; for BFS these are the sentinel label at every vertex — the source
included, since `BFSProblem::DataSlice::Reset` does not write a 0 source
label (that seeding lives in the BFS enactor's reset, outside the Problem
round trip) — and predecessor `-2` at every vertex. -/
theorem C5_extract_after_reset (enable_idempotence : Bool)
    (nodes src : Nat) (hsrc : src < nodes) :
    bfsExtract (bfsResetLabels enable_idempotence nodes) (bfsResetPreds nodes)
        = (bfsResetLabels enable_idempotence nodes, bfsResetPreds nodes)
  ∧ (bfsExtract (bfsResetLabels enable_idempotence nodes)
        (bfsResetPreds nodes)).1.getD src 0 = bfsSentinel enable_idempotence
  ∧ (bfsExtract (bfsResetLabels enable_idempotence nodes)
        (bfsResetPreds nodes)).2.getD src 0 = -2 := by
  refine ⟨rfl, ?_, ?_⟩
  · exact getD_replicate_of_lt nodes src _ hsrc
  · exact getD_replicate_of_lt nodes src _ hsrc

/-- C5 witness: the amended round trip evaluated on a concrete 4-node
instance with source 0. -/
theorem C5_extract_after_reset_witness :
    (bfsExtract (bfsResetLabels false 4) (bfsResetPreds 4)).2.getD 0 0 = -2 :=
  (C5_extract_after_reset false 4 0 (by decide)).2.2

/-- C6 counterexample: the claim says the non-idempotent label sentinel is
the maximum representable `VertexId` value.  The code writes
`util::MaxValue<VertexId>() - 1`; on a 1-node instance the reset label is
2147483646, not 2147483647. -/
theorem C6_counterexample :
    bfsResetLabels false 1 = [2147483646]
  ∧ maxValueVertexId = 2147483647
  ∧ (bfsResetLabels false 1).getD 0 0 ≠ maxValueVertexId := by
  decide

/-- C6 (amended): after `BFSProblem::DataSlice::Reset` every entry of
`labels` holds `-1` when idempotence is enabled and
`MaxValue<VertexId>() - 1` (one less than the maximum representable
value) otherwise, and with `MARK_PREDECESSORS` every entry of `preds` is
`-2`. -/
theorem C6_reset_sentinels (enable_idempotence : Bool) (nodes v : Nat)
    (hv : v < nodes) :
    (bfsResetLabels enable_idempotence nodes).getD v 0
        = (if enable_idempotence then -1 else maxValueVertexId - 1)
  ∧ (bfsResetPreds nodes).getD v 0 = -2 := by
  constructor
  · rw [bfsResetLabels, getD_replicate_of_lt nodes v _ hv, bfsSentinel]
  · exact getD_replicate_of_lt nodes v _ hv

/-- C6 witness: the amended sentinel values on a concrete 3-node
instance, in both idempotence modes. -/
theorem C6_reset_sentinels_witness :
    (bfsResetLabels true 3).getD 2 0 = (if true then -1 else maxValueVertexId - 1)
  ∧ (bfsResetPreds 3).getD 2 0 = -2 :=
  C6_reset_sentinels true 3 2 (by decide)

/-- C7: the claim says `Extract` returns the first-encountered device
error and never returns success after a device operation failed.  In
`HITSProblem::Extract` (and `BCProblem::Extract`) the initial
`cudaSetDevice` failure is dropped: `if (util::GRError(...)) break;`
leaves `retval = cudaSuccess`, so Extract returns success after a failed
device operation, contradicting the function's own doc comment ("return
cudaError_t object which indicates the success of all CUDA function
calls").  The memcpy failures, by contrast, are propagated first-error.
This theorem evaluates the embedded code at the failing input. -/
theorem C7_extract_swallows_setdevice_error :
    hitsExtract cudaError.errorInvalidDevice cudaError.success cudaError.success
        = cudaError.success
  ∧ cudaError.errorInvalidDevice ≠ cudaError.success
  ∧ hitsExtract cudaError.success cudaError.errorUnknown cudaError.success
        = cudaError.errorUnknown
  ∧ hitsExtract cudaError.success cudaError.success cudaError.errorUnknown
        = cudaError.errorUnknown
  ∧ bcExtract cudaError.errorInvalidDevice cudaError.success cudaError.success
        cudaError.success true true = cudaError.success := by
  decide

/-- C8: after a successful `Init` (all device arrays allocated),
`HITSProblem::Reset` can be repeated without performing any new device
allocation — every `cudaMalloc` in Reset is guarded by a null check — and
the set of allocated arrays is unchanged across repeated Reset calls; in
general each array is allocated by Reset exactly when its prior
allocation is missing, and likewise for the spec-modelled
`Array1D::Allocate` used by `BFSProblem::DataSlice::Reset`. -/
theorem C8_reset_no_realloc (a : HitsAllocState) (h : a = hitsInitAlloc) :
    (hitsResetAlloc a).2 = hitsNoNewAlloc
  ∧ (hitsResetAlloc a).1 = a
  ∧ (hitsResetAlloc (hitsResetAlloc a).1).2 = hitsNoNewAlloc
  ∧ (hitsResetAlloc (hitsResetAlloc a).1).1 = a
  ∧ (∀ b : HitsAllocState, (hitsResetAlloc b).2.hrank_curr = !b.hrank_curr
      ∧ (hitsResetAlloc b).2.src_node = !b.src_node
      ∧ (hitsResetAlloc b).1 = hitsInitAlloc)
  ∧ (∀ allocated : Bool, (array1dAllocate allocated).1 = true
      ∧ ((array1dAllocate allocated).2 = true ↔ allocated = false)) := by
  subst h
  refine ⟨rfl, rfl, rfl, rfl, fun b => ⟨rfl, rfl, rfl⟩, fun allocated => ?_⟩
  cases allocated <;> simp [array1dAllocate]

/-- C8 witness: the claim applied to the concrete post-Init allocation
state. -/
theorem C8_reset_no_realloc_witness :
    (hitsResetAlloc hitsInitAlloc).2 = hitsNoNewAlloc :=
  (C8_reset_no_realloc hitsInitAlloc rfl).1

/-- C10: `SALSAEnactor::NormalizeRank` performs no normalization: it
copies the first `nodes` entries of the selected `rank_next` array (hub
pair when `hub_or_auth = 0`, authority pair otherwise) into the matching
`rank_curr`, zeroes those entries of `rank_next`, and leaves the
unselected pair of rank arrays untouched. -/
theorem C10_normalizeRank (st : SalsaRanks) (hub_or_auth : Int)
    (nodes i : Nat) :
    ((normalizeRank st 0 nodes).hrank_curr i
        = if i < nodes then st.hrank_next i else st.hrank_curr i)
  ∧ ((normalizeRank st 0 nodes).hrank_next i
        = if i < nodes then 0 else st.hrank_next i)
  ∧ (normalizeRank st 0 nodes).arank_curr = st.arank_curr
  ∧ (normalizeRank st 0 nodes).arank_next = st.arank_next
  ∧ (hub_or_auth ≠ 0 →
      ((normalizeRank st hub_or_auth nodes).arank_curr i
          = if i < nodes then st.arank_next i else st.arank_curr i)
    ∧ ((normalizeRank st hub_or_auth nodes).arank_next i
          = if i < nodes then 0 else st.arank_next i)
    ∧ (normalizeRank st hub_or_auth nodes).hrank_curr = st.hrank_curr
    ∧ (normalizeRank st hub_or_auth nodes).hrank_next = st.hrank_next) := by
  refine ⟨rfl, rfl, rfl, rfl, fun hne => ?_⟩
  rw [normalizeRank, if_neg hne]
  exact ⟨rfl, rfl, rfl, rfl⟩

/-- C10 witness: the authority-side branch evaluated at a concrete rank
state. -/
theorem C10_normalizeRank_witness :
    (normalizeRank ⟨fun _ => 1, fun _ => 2, fun _ => 3, fun _ => 4⟩ 1 2).arank_curr 0
        = if 0 < 2 then (4 : ℚ) else 3 :=
  ((C10_normalizeRank ⟨fun _ => 1, fun _ => 2, fun _ => 3, fun _ => 4⟩ 1 2 0).2.2.2.2
    (by decide)).1

/-- C3: `PRFunctor::CondFilter` first applies damping, storing
`rank_next[node] := (1 - delta) + delta * rank_next[node]`, and returns
false exactly when `|rank_next[node] - rank_curr[node]| < threshold`
after that update; consequently every vertex surviving the filter pass
into the next frontier has `|rank_next - rank_curr| ≥ threshold`. -/
theorem C3_pr_condfilter (delta threshold : ℚ) (rank_curr rank_next : Nat → ℚ)
    (node v : Nat) (frontier : List Nat) (hnd : frontier.Nodup)
    (hv : v ∈ (prFilterStep delta threshold rank_curr frontier rank_next).2) :
    ((prCondFilter delta threshold rank_curr rank_next node).1 node
        = (1 - delta) + delta * rank_next node)
  ∧ ((prCondFilter delta threshold rank_curr rank_next node).2 = false
        ↔ |((1 - delta) + delta * rank_next node) - rank_curr node|
            < threshold)
  ∧ threshold ≤
      |(prFilterStep delta threshold rank_curr frontier rank_next).1 v
        - rank_curr v| := by
  refine ⟨by simp [prCondFilter], ?_, ?_⟩
  · simp [prCondFilter, not_le]
  · exact prFilterStep_mem_ge delta threshold rank_curr frontier rank_next hnd v hv

/-- C3 witness: a concrete filter pass with `delta = 1/2`,
`threshold = 1/10`, `rank_curr ≡ 1` and `rank_next ≡ 2`; vertex 0 is
damped to `3/2`, survives, and its difference `1/2` is at least the
threshold. -/
theorem C3_pr_condfilter_witness :
    (1/10 : ℚ) ≤
      |(prFilterStep (1/2) (1/10) (fun _ => 1) [0] (fun _ => 2)).1 0
        - (fun _ => (1:ℚ)) 0| :=
  (C3_pr_condfilter (1/2) (1/10) (fun _ => 1) (fun _ => 2) 0 0 [0]
    (by decide)
    (by simp only [prFilterStep, prCondFilter]; norm_num [abs_of_nonneg])).2.2

/-! ## Claim C9: binary_search -/

/-- Sortedness (ascending, non-strict) of `arr` on the inclusive index
range `[left, right]`, the precondition of the claim. -/
def sortedOn (arr : List Int) (left right : Int) : Prop :=
  ∀ i, i < arr.length → ∀ j, j < arr.length →
    left ≤ (i:Int) → (i:Int) ≤ (j:Int) → (j:Int) ≤ right →
    arr.getD i 0 ≤ arr.getD j 0

instance sortedOn_decidable (arr : List Int) (left right : Int) : Decidable (sortedOn arr left right) := by
  unfold sortedOn; infer_instance

/-- Occurrence of `val` in `arr` within the inclusive index range
`[left, right]` (executable). -/
def occursOn (arr : List Int) (val left right : Int) : Bool :=
  (List.range arr.length).any fun i =>
    decide (left ≤ (i:Int)) && decide ((i:Int) ≤ right) && decide (arr.getD i 0 = val)

/-- Unfolding of `occursOn` to its existential meaning. -/
theorem occursOn_iff (arr : List Int) (val left right : Int) :
    occursOn arr val left right = true ↔
      ∃ i : Nat, i < arr.length ∧ left ≤ (i:Int) ∧ (i:Int) ≤ right
        ∧ arr.getD i 0 = val := by
  simp [occursOn, List.any_eq_true, List.mem_range, and_assoc]

/-- Main induction (on an upper bound of the width of the search range):
on a range sorted ascending, `binary_search` returns `val` when `val`
occurs in the range and `-1` when it does not. -/
theorem binary_search_correct :
    ∀ (n : Nat) (arr : List Int) (val left right : Int),
    (right + 1 - left).toNat ≤ n → 0 ≤ left → right < (arr.length : Int) →
    sortedOn arr left right →
    (occursOn arr val left right = true → binary_search arr val left right = val)
  ∧ (occursOn arr val left right = false → binary_search arr val left right = -1) := by
  intro n
  induction n with
  | zero =>
      intro arr val left right hm hl hr hs
      have hlr : ¬ left ≤ right := by omega
      constructor
      · intro hocc
        rcases (occursOn_iff arr val left right).mp hocc with ⟨i, _, h1, h2, _⟩
        omega
      · intro _
        rw [binary_search]; simp [hlr]
  | succ n ih =>
      intro arr val left right hm hl hr hs
      by_cases hlr : left ≤ right
      · have hd0 : 0 ≤ (right - left) / 2 := Int.ediv_nonneg (by omega) (by omega)
        have hd1 : (right - left) / 2 ≤ right - left := Int.ediv_le_self _ (by omega)
        have hml : left ≤ left + (right - left) / 2 := by omega
        have hmr : left + (right - left) / 2 ≤ right := by omega
        have hmidlen : (left + (right - left) / 2).toNat < arr.length := by omega
        have hcast : (((left + (right - left) / 2).toNat : Int))
            = left + (right - left) / 2 := Int.toNat_of_nonneg (by omega)
        by_cases he : arr.getD (left + (right - left) / 2).toNat 0 = val
        · have hres : binary_search arr val left right = val := by
            rw [binary_search]
            simp only [dif_pos hlr]
            rw [if_pos he]
            exact he
          have hocc : occursOn arr val left right = true := by
            refine (occursOn_iff arr val left right).mpr
              ⟨(left + (right - left) / 2).toNat, hmidlen, by omega, by omega, he⟩
          exact ⟨fun _ => hres, fun hf => by rw [hf] at hocc; exact absurd hocc (by simp)⟩
        · by_cases hgt : arr.getD (left + (right - left) / 2).toNat 0 > val
          · have hstep : binary_search arr val left right
                = binary_search arr val left (left + (right - left) / 2 - 1) := by
              rw [binary_search]
              simp only [dif_pos hlr]
              rw [if_neg he, if_pos hgt]
            have hocceq : occursOn arr val left right = true
                ↔ occursOn arr val left (left + (right - left) / 2 - 1) = true := by
              rw [occursOn_iff, occursOn_iff]
              constructor
              · rintro ⟨i, hi, h1, h2, h3⟩
                refine ⟨i, hi, h1, ?_, h3⟩
                by_contra hcon
                have hge : left + (right - left) / 2 ≤ (i:Int) := by omega
                have hmono := hs (left + (right - left) / 2).toNat hmidlen i hi
                  (by omega) (by omega) h2
                rw [h3] at hmono
                omega
              · rintro ⟨i, hi, h1, h2, h3⟩
                exact ⟨i, hi, h1, by omega, h3⟩
            have hsorted' : sortedOn arr left (left + (right - left) / 2 - 1) :=
              fun i hi j hj h1 h2 h3 => hs i hi j hj h1 h2 (by omega)
            have hih := ih arr val left (left + (right - left) / 2 - 1)
              (by omega) hl (by omega) hsorted'
            constructor
            · intro hocc
              rw [hstep]
              exact hih.1 (hocceq.mp hocc)
            · intro hocc
              rw [hstep]
              apply hih.2
              cases hoc2 : occursOn arr val left (left + (right - left) / 2 - 1) with
              | false => rfl
              | true => rw [hocceq.mpr hoc2] at hocc; cases hocc
          · have hlt : arr.getD (left + (right - left) / 2).toNat 0 < val :=
              lt_of_le_of_ne (not_lt.mp hgt) he
            have hstep : binary_search arr val left right
                = binary_search arr val (left + (right - left) / 2 + 1) right := by
              rw [binary_search]
              simp only [dif_pos hlr]
              rw [if_neg he, if_neg hgt]
            have hocceq : occursOn arr val left right = true
                ↔ occursOn arr val (left + (right - left) / 2 + 1) right = true := by
              rw [occursOn_iff, occursOn_iff]
              constructor
              · rintro ⟨i, hi, h1, h2, h3⟩
                refine ⟨i, hi, ?_, h2, h3⟩
                by_contra hcon
                have hle : (i:Int) ≤ left + (right - left) / 2 := by omega
                have hmono := hs i hi (left + (right - left) / 2).toNat hmidlen
                  h1 (by omega) (by omega)
                rw [h3] at hmono
                omega
              · rintro ⟨i, hi, h1, h2, h3⟩
                exact ⟨i, hi, by omega, h2, h3⟩
            have hsorted' : sortedOn arr (left + (right - left) / 2 + 1) right :=
              fun i hi j hj h1 h2 h3 => hs i hi j hj (by omega) h2 h3
            have hih := ih arr val (left + (right - left) / 2 + 1) right
              (by omega) (by omega) hr hsorted'
            constructor
            · intro hocc
              rw [hstep]
              exact hih.1 (hocceq.mp hocc)
            · intro hocc
              rw [hstep]
              apply hih.2
              cases hoc2 : occursOn arr val (left + (right - left) / 2 + 1) right with
              | false => rfl
              | true => rw [hocceq.mpr hoc2] at hocc; cases hocc
      · constructor
        · intro hocc
          rcases (occursOn_iff arr val left right).mp hocc with ⟨i, _, h1, h2, _⟩
          omega
        · intro _
          rw [binary_search]; simp [hlr]

/-- C9: for every array sorted in ascending order on `[left, right]` and
every value, `binary_search(arr, val, left, right)` returns `val` if
`val` occurs in `arr` within that range and `-1` otherwise. -/
theorem C9_binary_search (arr : List Int) (val left right : Int)
    (hl : 0 ≤ left) (hr : right < (arr.length : Int))
    (hsorted : sortedOn arr left right) :
    (occursOn arr val left right = true → binary_search arr val left right = val)
  ∧ (occursOn arr val left right = false →
      binary_search arr val left right = -1) :=
  binary_search_correct (right + 1 - left).toNat arr val left right le_rfl
    hl hr hsorted

/-- C9 witness: a hit (value 5) and a miss (value 4) on the concrete
sorted array `[1, 3, 5, 7]`. -/
theorem C9_binary_search_witness :
    binary_search [1, 3, 5, 7] 5 0 3 = 5 ∧ binary_search [1, 3, 5, 7] 4 0 3 = -1 :=
  ⟨(C9_binary_search [1, 3, 5, 7] 5 0 3 (by decide) (by decide) (by decide)).1
      (by decide),
   (C9_binary_search [1, 3, 5, 7] 4 0 3 (by decide) (by decide) (by decide)).2
      (by decide)⟩

/-! ## Claim C1: BFS computes shortest-path labels -/

/-- CSR graph representation (spec par.3): `nodes`, `row_offsets` (prefix
sums into `column_indices`) and `column_indices`. -/
structure Csr where
  nodes : Nat
  row_offsets : List Nat
  column_indices : List Nat
  deriving DecidableEq, Repr

/-- Neighbor list of vertex `v`: the slice
`column_indices[row_offsets[v] ..< row_offsets[v+1]]`. -/
def Csr.neighbors (g : Csr) (v : Nat) : List Nat :=
  (g.column_indices.take (g.row_offsets.getD (v + 1) 0)).drop
    (g.row_offsets.getD v 0)

/-- Well-formedness of the CSR structure, as far as the claims need it:
every stored destination is a valid vertex id. -/
def Csr.Wf (g : Csr) : Prop :=
  ∀ d ∈ g.column_indices, d < g.nodes

instance Csr.wf_decidable (g : Csr) : Decidable g.Wf := by
  unfold Csr.Wf; infer_instance

theorem Csr.neighbors_subset (g : Csr) (v d : Nat) (h : d ∈ g.neighbors v) :
    d ∈ g.column_indices :=
  List.mem_of_mem_take (List.mem_of_mem_drop h)

/-- Specification-side reachability: `ball g src n` lists the vertices
reachable from `src` by a path of at most `n` edges.  This is the
reference notion of distance the claim compares the BFS run against; it
is independent of the functor embedding. -/
def ball (g : Csr) (src : Nat) : Nat → List Nat
  | 0 => [src]
  | n + 1 => ((ball g src n).flatMap fun u => u :: g.neighbors u).dedup

/-- One-step unfolding of the reachability ball. -/
theorem mem_ball_succ_iff (g : Csr) (src v n : Nat) :
    v ∈ ball g src (n + 1) ↔
      ∃ u ∈ ball g src n, v = u ∨ v ∈ g.neighbors u := by
  simp [ball, List.mem_dedup, List.mem_flatMap]

/-- Balls grow with the hop count. -/
theorem ball_subset_succ (g : Csr) (src v n : Nat) (h : v ∈ ball g src n) :
    v ∈ ball g src (n + 1) :=
  (mem_ball_succ_iff g src v n).mpr ⟨v, h, Or.inl rfl⟩

/-- Monotonicity of the reachability ball. -/
theorem ball_mono (g : Csr) (src v : Nat) {m n : Nat} (hmn : m ≤ n)
    (h : v ∈ ball g src m) : v ∈ ball g src n := by
  induction n with
  | zero => simpa [Nat.le_zero.mp hmn] using h
  | succ n ih =>
      rcases Nat.lt_or_ge m (n + 1) with hlt | hge
      · exact ball_subset_succ g src v n (ih (by omega))
      · have : m = n + 1 := by omega
        simpa [this] using h

/-- In a well-formed graph every reachable vertex is a valid vertex id. -/
theorem mem_ball_lt_nodes (g : Csr) (src : Nat) (hwf : g.Wf)
    (hsrc : src < g.nodes) :
    ∀ n v, v ∈ ball g src n → v < g.nodes := by
  intro n
  induction n with
  | zero => intro v hv; simp [ball] at hv; simpa [hv] using hsrc
  | succ n ih =>
      intro v hv
      rcases (mem_ball_succ_iff g src v n).mp hv with ⟨u, hu, rfl | hnb⟩
      · exact ih _ hu
      · exact hwf v (Csr.neighbors_subset g u v hnb)

/-- The length of the shortest path from `src` to `v` in unweighted edge
count is exactly `n`: `v` is within `n` hops and within no smaller hop
count. -/
def IsDist (g : Csr) (src v n : Nat) : Prop :=
  v ∈ ball g src n ∧ ∀ m < n, v ∉ ball g src m

instance isDist_decidable (g : Csr) (src v n : Nat) :
    Decidable (IsDist g src v n) := by
  unfold IsDist; infer_instance

/-- The source is at distance 0 from itself. -/
theorem isDist_src (g : Csr) (src : Nat) : IsDist g src src 0 :=
  ⟨by simp [ball], fun m hm => absurd hm (Nat.not_lt_zero m)⟩

/-- Only the source is at distance 0. -/
theorem isDist_zero (g : Csr) (src v : Nat) (h : IsDist g src v 0) : v = src := by
  simpa [ball] using h.1

/-- A vertex has at most one shortest-path distance. -/
theorem isDist_unique (g : Csr) (src v : Nat) {m n : Nat}
    (hm : IsDist g src v m) (hn : IsDist g src v n) : m = n := by
  by_contra hne
  rcases Nat.lt_or_ge m n with hlt | hge
  · exact hn.2 m hlt hm.1
  · exact hm.2 n (by omega) hn.1

/-- Every reachable vertex has a (least) shortest-path distance. -/
theorem exists_isDist (g : Csr) (src v : Nat) (h : ∃ n, v ∈ ball g src n) :
    ∃ m, IsDist g src v m ∧ ∀ n, v ∈ ball g src n → m ≤ n := by
  refine ⟨Nat.find h, ⟨Nat.find_spec h, fun m hm => Nat.find_min h hm⟩, ?_⟩
  exact fun n hn => Nat.find_min' h hn

/-- A vertex at distance `n + 1` has an in-neighbor at distance `n`. -/
theorem isDist_pred (g : Csr) (src v n : Nat) (h : IsDist g src v (n + 1)) :
    ∃ u, IsDist g src u n ∧ v ∈ g.neighbors u := by
  rcases (mem_ball_succ_iff g src v n).mp h.1 with ⟨u, hu, rfl | hnb⟩
  · exact absurd hu (h.2 n (by omega))
  · rcases exists_isDist g src u ⟨n, hu⟩ with ⟨m, hm, hmin⟩
    have hmn : m ≤ n := hmin n hu
    rcases Nat.lt_or_ge m n with hlt | hge
    · exfalso
      have hvm : v ∈ ball g src (m + 1) :=
        (mem_ball_succ_iff g src v m).mpr ⟨u, hm.1, Or.inr hnb⟩
      exact h.2 (m + 1) (by omega) hvm
    · have : m = n := by omega
      exact ⟨u, this ▸ hm, hnb⟩

/-- Below a vertex at distance `n` every level `m ≤ n` is inhabited. -/
theorem isDist_chain (g : Csr) (src : Nat) :
    ∀ n v, IsDist g src v n → ∀ m, m ≤ n → ∃ u, IsDist g src u m := by
  intro n
  induction n with
  | zero => intro v hv m hm; exact ⟨v, by simpa [Nat.le_zero.mp hm] using hv⟩
  | succ n ih =>
      intro v hv m hm
      rcases Nat.lt_or_ge m (n + 1) with hlt | hge
      · rcases isDist_pred g src v n hv with ⟨u, hu, _⟩
        exact ih u hu m (by omega)
      · have : m = n + 1 := by omega
        exact ⟨v, this ▸ hv⟩

/-- Shortest-path distances are below the vertex count: the levels
`0..n` are inhabited by distinct valid vertices. -/
theorem isDist_lt_nodes (g : Csr) (src v n : Nat) (hwf : g.Wf)
    (hsrc : src < g.nodes) (h : IsDist g src v n) : n < g.nodes := by
  have hch : ∀ m : Fin (n + 1), ∃ u, IsDist g src u m :=
    fun m => isDist_chain g src n v h m (by omega)
  choose f hf using hch
  have hmap : ∀ m : Fin (n + 1), f m < g.nodes :=
    fun m => mem_ball_lt_nodes g src hwf hsrc m (f m) (hf m).1
  have hinj : Function.Injective (fun m : Fin (n + 1) => (⟨f m, hmap m⟩ : Fin g.nodes)) := by
    intro a b hab
    have : f a = f b := by simpa using hab
    have := isDist_unique g src (f a) (hf a) (this ▸ hf b)
    exact Fin.ext (by simpa using this)
  have := Fintype.card_le_of_injective _ hinj
  simpa using this
/-- Embedding of `BFSFunctor::CondEdge` and `BFSFunctor::ApplyEdge`
(bfs_functor.cuh lines 51-106) along the neighbor list of one source
vertex `s`, in the `MARK_PREDECESSORS`, non-idempotent configuration the
claim describes: `CondEdge` computes `new_label = labels[s_id] + 1`,
performs `old_label = atomicMin(labels + d_id, new_label)` and accepts
the edge iff `new_label < old_label`; for an accepted edge `ApplyEdge`
stores `s_id` into `preds[d_id]` (`original_vertex` is null single-GPU)
and the destination is written to the output frontier.  When the edge is
rejected the atomicMin stores `min(old, new) = old`, leaving the array
unchanged.  The per-edge sequencing is the spec-modelled Advance operator
(spec par.4.2; the advance kernels are not under src/): per input element,
each neighbor is tested with `CondEdge`, and accepted destinations are
appended in scan order. -/
def bfsExpandEdges (labels preds : Nat → Int) (s : Nat) :
    List Nat → (Nat → Int) × (Nat → Int) × List Nat
  | [] => (labels, preds, [])
  | d :: ds =>
      if labels s + 1 < labels d then
        let r := bfsExpandEdges
          (fun v => if v = d then labels s + 1 else labels v)
          (fun v => if v = d then (s : Int) else preds v) s ds
        (r.1, r.2.1, d :: r.2.2)
      else bfsExpandEdges labels preds s ds

/-- Step equation of `bfsExpandEdges`: accepted edge. -/
theorem bfsExpandEdges_cons_accept (labels preds : Nat → Int) (s d : Nat)
    (ds : List Nat) (h : labels s + 1 < labels d) :
    bfsExpandEdges labels preds s (d :: ds)
      = ((bfsExpandEdges (fun v => if v = d then labels s + 1 else labels v)
            (fun v => if v = d then (s : Int) else preds v) s ds).1,
         (bfsExpandEdges (fun v => if v = d then labels s + 1 else labels v)
            (fun v => if v = d then (s : Int) else preds v) s ds).2.1,
         d :: (bfsExpandEdges (fun v => if v = d then labels s + 1 else labels v)
            (fun v => if v = d then (s : Int) else preds v) s ds).2.2) := by
  simp [bfsExpandEdges, h]

/-- Step equation of `bfsExpandEdges`: rejected edge. -/
theorem bfsExpandEdges_cons_reject (labels preds : Nat → Int) (s d : Nat)
    (ds : List Nat) (h : ¬ labels s + 1 < labels d) :
    bfsExpandEdges labels preds s (d :: ds)
      = bfsExpandEdges labels preds s ds := by
  simp [bfsExpandEdges, h]

/-- Behaviour of one source expansion at level `k`: finalized labels are
preserved; any change claims a distance-`(k+1)` vertex from sentinel to
`k + 1` and records it in the output; every distance-`(k+1)` neighbor of
`s` ends with label `k + 1`, and those still at the sentinel enter the
output. -/
theorem bfsExpandEdges_spec (g : Csr) (src k s : Nat)
    (hs : IsDist g src s k) (hkInf : (k : Int) + 1 < bfsSentinel false) :
    ∀ (ds : List Nat) (labels preds : Nat → Int),
    (∀ d ∈ ds, d ∈ g.neighbors s) →
    (∀ v n, IsDist g src v n → n ≤ k → labels v = (n : Int)) →
    (∀ v, labels v = bfsSentinel false ∨
       ∃ n, IsDist g src v n ∧ labels v = (n : Int) ∧ n ≤ k + 1) →
    (∀ v n, IsDist g src v n → n ≤ k →
        (bfsExpandEdges labels preds s ds).1 v = (n : Int))
  ∧ (∀ v, (bfsExpandEdges labels preds s ds).1 v = labels v ∨
        (labels v = bfsSentinel false
          ∧ (bfsExpandEdges labels preds s ds).1 v = (k : Int) + 1
          ∧ v ∈ (bfsExpandEdges labels preds s ds).2.2))
  ∧ (∀ v ∈ (bfsExpandEdges labels preds s ds).2.2,
        IsDist g src v (k + 1)
          ∧ (bfsExpandEdges labels preds s ds).1 v = (k : Int) + 1
          ∧ labels v = bfsSentinel false)
  ∧ (∀ d ∈ ds, IsDist g src d (k + 1) →
        (bfsExpandEdges labels preds s ds).1 d = (k : Int) + 1)
  ∧ (∀ d ∈ ds, IsDist g src d (k + 1) → labels d = bfsSentinel false →
        d ∈ (bfsExpandEdges labels preds s ds).2.2)
  ∧ (∀ v, (bfsExpandEdges labels preds s ds).1 v = bfsSentinel false ∨
        ∃ n, IsDist g src v n
          ∧ (bfsExpandEdges labels preds s ds).1 v = (n : Int) ∧ n ≤ k + 1) := by
  intro ds
  induction ds with
  | nil =>
      intro labels preds _ H1 H2
      exact ⟨fun v n h hn => H1 v n h hn, fun v => Or.inl rfl,
        fun v hv => absurd hv (List.not_mem_nil v),
        fun d hd => absurd hd (List.not_mem_nil d),
        fun d hd => absurd hd (List.not_mem_nil d),
        H2⟩
  | cons d ds ih =>
      intro labels preds hnb H1 H2
      have hls : labels s = (k : Int) := H1 s k hs le_rfl
      by_cases hacc : labels s + 1 < labels d
      · -- the edge claims d : labels[d] becomes labels[s]+1 = k+1
        have hdInf : labels d = bfsSentinel false := by
          rcases H2 d with h | ⟨n, _, hval, hle⟩
          · exact h
          · exfalso
            have hcast : (n : Int) ≤ (k : Int) + 1 := by exact_mod_cast hle
            rw [hval, hls] at hacc
            omega
        have hdd : IsDist g src d (k + 1) := by
          have hball : d ∈ ball g src (k + 1) :=
            (mem_ball_succ_iff g src d k).mpr
              ⟨s, hs.1, Or.inr (hnb d (List.mem_cons_self d ds))⟩
          rcases exists_isDist g src d ⟨k + 1, hball⟩ with ⟨m, hm, hmin⟩
          have hm1 : m ≤ k + 1 := hmin _ hball
          rcases Nat.lt_or_ge m (k + 1) with hlt | hge
          · exfalso
            have hval := H1 d m hm (by omega)
            rw [hdInf] at hval
            have hcast : (m : Int) ≤ (k : Int) := by exact_mod_cast Nat.lt_succ_iff.mp hlt
            omega
          · have hmeq : m = k + 1 := by omega
            exact hmeq ▸ hm
        have H1' : ∀ v n, IsDist g src v n → n ≤ k →
            (fun v => if v = d then labels s + 1 else labels v) v = (n : Int) := by
          intro v n hv hn
          by_cases hvd : v = d
          · exfalso
            have := isDist_unique g src v hv (hvd ▸ hdd)
            omega
          · simpa [hvd] using H1 v n hv hn
        have H2' : ∀ v, (fun v => if v = d then labels s + 1 else labels v) v
              = bfsSentinel false ∨
            ∃ n, IsDist g src v n
              ∧ (fun v => if v = d then labels s + 1 else labels v) v = (n : Int)
              ∧ n ≤ k + 1 := by
          intro v
          by_cases hvd : v = d
          · refine Or.inr ⟨k + 1, hvd ▸ hdd, ?_, le_rfl⟩
            simp [hvd, hls]
          · simpa [hvd] using H2 v
        have IH := ih (fun v => if v = d then labels s + 1 else labels v)
          (fun v => if v = d then (s : Int) else preds v)
          (fun x hx => hnb x (List.mem_cons_of_mem d hx)) H1' H2'
        rw [bfsExpandEdges_cons_accept labels preds s d ds hacc]
        obtain ⟨K1, K2, K3, K4, K5, K6⟩ := IH
        have hval_d : (bfsExpandEdges
            (fun v => if v = d then labels s + 1 else labels v)
            (fun v => if v = d then (s : Int) else preds v) s ds).1 d
              = (k : Int) + 1 := by
          rcases K2 d with h | ⟨hinf, _, _⟩
          · rw [h]; simp [hls]
          · exfalso
            simp [hls] at hinf
            omega
        refine ⟨?_, ?_, ?_, ?_, ?_, ?_⟩
        · exact fun v n hv hn => K1 v n hv hn
        · intro v
          by_cases hvd : v = d
          · subst hvd
            exact Or.inr ⟨hdInf, hval_d, List.mem_cons_self v _⟩
          · rcases K2 v with h | ⟨hinf, hval, hmem⟩
            · rw [h]
              simp [hvd]
            · simp [hvd] at hinf
              exact Or.inr ⟨hinf, hval, List.mem_cons_of_mem d hmem⟩
        · intro v hv
          rcases List.mem_cons.mp hv with rfl | hv'
          · exact ⟨hdd, hval_d, hdInf⟩
          · obtain ⟨hdist, hval, hinf⟩ := K3 v hv'
            have hvd : v ≠ d := by
              intro hvd
              subst hvd
              simp [hls] at hinf
              omega
            simp [hvd] at hinf
            exact ⟨hdist, hval, hinf⟩
        · intro x hx hdist
          rcases List.mem_cons.mp hx with rfl | hx'
          · exact hval_d
          · exact K4 x hx' hdist
        · intro x hx hdist hinf
          rcases List.mem_cons.mp hx with rfl | hx'
          · exact List.mem_cons_self x _
          · by_cases hxd : x = d
            · exact hxd ▸ List.mem_cons_self d _
            · refine List.mem_cons_of_mem d (K5 x hx' hdist ?_)
              simpa [hxd] using hinf
        · exact K6
      · -- the edge is rejected: atomicMin leaves labels[d] = min unchanged
        rw [bfsExpandEdges_cons_reject labels preds s d ds hacc]
        have IH := ih labels preds
          (fun x hx => hnb x (List.mem_cons_of_mem d hx)) H1 H2
        obtain ⟨K1, K2, K3, K4, K5, K6⟩ := IH
        have hd_level : IsDist g src d (k + 1) → labels d = (k : Int) + 1 := by
          intro hdist
          rcases H2 d with h | ⟨n, hn, hval, hle⟩
          · exfalso
            rw [h, hls] at hacc
            omega
          · have := isDist_unique g src d hn hdist
            subst this
            rw [hval]
            push_cast
            ring
        refine ⟨K1, K2, K3, ?_, ?_, K6⟩
        · intro x hx hdist
          rcases List.mem_cons.mp hx with rfl | hx'
          · have hlv := hd_level hdist
            rcases K2 x with h | ⟨hinf, hval, _⟩
            · rw [h]; exact hlv
            · exact hval
          · exact K4 x hx' hdist
        · intro x hx hdist hinf
          rcases List.mem_cons.mp hx with rfl | hx'
          · exfalso
            have hlv := hd_level hdist
            rw [hinf] at hlv
            omega
          · exact K5 x hx' hdist hinf

/-- Modelled from the spec: the Advance operator (spec par.4.2, kernels not
under src/) expands every element of the input frontier across its
neighbor range, invoking the BFS functor per edge, and concatenates the
accepted destinations in input order. -/
def bfsAdvance (g : Csr) : List Nat → (Nat → Int) → (Nat → Int) →
    (Nat → Int) × (Nat → Int) × List Nat
  | [], labels, preds => (labels, preds, [])
  | s :: rest, labels, preds =>
      let r1 := bfsExpandEdges labels preds s (g.neighbors s)
      let r2 := bfsAdvance g rest r1.1 r1.2.1
      (r2.1, r2.2.1, r1.2.2 ++ r2.2.2)

/-- Step equation of `bfsAdvance`. -/
theorem bfsAdvance_cons (g : Csr) (s : Nat) (rest : List Nat)
    (labels preds : Nat → Int) :
    bfsAdvance g (s :: rest) labels preds
      = ((bfsAdvance g rest (bfsExpandEdges labels preds s (g.neighbors s)).1
            (bfsExpandEdges labels preds s (g.neighbors s)).2.1).1,
         (bfsAdvance g rest (bfsExpandEdges labels preds s (g.neighbors s)).1
            (bfsExpandEdges labels preds s (g.neighbors s)).2.1).2.1,
         (bfsExpandEdges labels preds s (g.neighbors s)).2.2
           ++ (bfsAdvance g rest (bfsExpandEdges labels preds s (g.neighbors s)).1
                (bfsExpandEdges labels preds s (g.neighbors s)).2.1).2.2) := by
  simp [bfsAdvance]

/-- Behaviour of a whole Advance pass over a level-`k` frontier: labels
at most `k` are final, the output holds exactly newly claimed
distance-`(k+1)` vertices, and every distance-`(k+1)` vertex adjacent to
the frontier that still holds the sentinel is claimed. -/
theorem bfsAdvance_spec (g : Csr) (src k : Nat)
    (hkInf : (k : Int) + 1 < bfsSentinel false) :
    ∀ (F : List Nat) (labels preds : Nat → Int),
    (∀ s ∈ F, IsDist g src s k) →
    (∀ v n, IsDist g src v n → n ≤ k → labels v = (n : Int)) →
    (∀ v, labels v = bfsSentinel false ∨
       ∃ n, IsDist g src v n ∧ labels v = (n : Int) ∧ n ≤ k + 1) →
    (∀ v n, IsDist g src v n → n ≤ k →
        (bfsAdvance g F labels preds).1 v = (n : Int))
  ∧ (∀ v, (bfsAdvance g F labels preds).1 v = labels v ∨
        (labels v = bfsSentinel false
          ∧ (bfsAdvance g F labels preds).1 v = (k : Int) + 1
          ∧ v ∈ (bfsAdvance g F labels preds).2.2))
  ∧ (∀ v ∈ (bfsAdvance g F labels preds).2.2,
        IsDist g src v (k + 1)
          ∧ (bfsAdvance g F labels preds).1 v = (k : Int) + 1
          ∧ labels v = bfsSentinel false)
  ∧ (∀ v, IsDist g src v (k + 1) → labels v = bfsSentinel false →
        (∃ s ∈ F, v ∈ g.neighbors s) → v ∈ (bfsAdvance g F labels preds).2.2)
  ∧ (∀ v, (bfsAdvance g F labels preds).1 v = bfsSentinel false ∨
        ∃ n, IsDist g src v n
          ∧ (bfsAdvance g F labels preds).1 v = (n : Int) ∧ n ≤ k + 1) := by
  intro F
  induction F with
  | nil =>
      intro labels preds _ H1 H2
      exact ⟨fun v n hv hn => H1 v n hv hn, fun v => Or.inl rfl,
        fun v hv => absurd hv (List.not_mem_nil v),
        fun v _ _ h => absurd h (by simp),
        H2⟩
  | cons s rest ih =>
      intro labels preds HF H1 H2
      have hs : IsDist g src s k := HF s (List.mem_cons_self s rest)
      obtain ⟨K1, K2, K3, K4, K5, K6⟩ :=
        bfsExpandEdges_spec g src k s hs hkInf (g.neighbors s) labels preds
          (fun _ hd => hd) H1 H2
      obtain ⟨A1, A2, A3, A4, A6⟩ := ih
        (bfsExpandEdges labels preds s (g.neighbors s)).1
        (bfsExpandEdges labels preds s (g.neighbors s)).2.1
        (fun x hx => HF x (List.mem_cons_of_mem s hx)) K1 K6
      rw [bfsAdvance_cons]
      have hk1ne : ((k : Int) + 1) ≠ bfsSentinel false := by omega
      refine ⟨A1, ?_, ?_, ?_, A6⟩
      · intro v
        rcases A2 v with h2 | ⟨hinf2, hval2, hmem2⟩
        · rcases K2 v with h1 | ⟨hinf1, hval1, hmem1⟩
          · exact Or.inl (by rw [h2, h1])
          · exact Or.inr ⟨hinf1, by rw [h2, hval1], List.mem_append_left _ hmem1⟩
        · have hinf : labels v = bfsSentinel false := by
            rcases K2 v with h1 | ⟨hinf1, _, _⟩
            · rw [← h1]; exact hinf2
            · exact hinf1
          exact Or.inr ⟨hinf, hval2, List.mem_append_right _ hmem2⟩
      · intro v hv
        rcases List.mem_append.mp hv with hv1 | hv2
        · obtain ⟨hdist, hval1, hinf⟩ := K3 v hv1
          have hfin : (bfsAdvance g rest
              (bfsExpandEdges labels preds s (g.neighbors s)).1
              (bfsExpandEdges labels preds s (g.neighbors s)).2.1).1 v
                = (k : Int) + 1 := by
            rcases A2 v with h2 | ⟨hinf2, hval2, _⟩
            · rw [h2]; exact hval1
            · exact hval2
          exact ⟨hdist, hfin, hinf⟩
        · obtain ⟨hdist, hval2, hinf1⟩ := A3 v hv2
          have hinf : labels v = bfsSentinel false := by
            rcases K2 v with h1 | ⟨hinf0, hval0, _⟩
            · rw [← h1]; exact hinf1
            · exact hinf0
          exact ⟨hdist, hval2, hinf⟩
      · intro v hdist hinf hex
        rcases hex with ⟨s', hs', hnbv⟩
        rcases List.mem_cons.mp hs' with rfl | hs''
        · exact List.mem_append_left _ (K5 v hnbv hdist hinf)
        · rcases K2 v with h1 | ⟨_, _, hmem1⟩
          · refine List.mem_append_right _ (A4 v hdist ?_ ⟨s', hs'', hnbv⟩)
            rw [h1]; exact hinf
          · exact List.mem_append_left _ hmem1

structure BfsState where
  labels : Nat → Int
  preds : Nat → Int
  frontier : List Nat

/-- Embedding of `BFSFunctor::CondFilter` (bfs_functor.cuh line 124):
keep a frontier element iff `node != -1`. -/
def bfsCondFilter (node : Int) : Bool := node != -1

/-- Modelled from the spec: the Filter operator (spec par.4.3) compacts the
elements accepted by `CondFilter` preserving relative order
(`BFSFunctor::ApplyFilter` does nothing in this configuration). -/
def bfsFilter (frontier : List Nat) : List Nat :=
  frontier.filter fun node => bfsCondFilter (node : Int)

/-- Vertex ids are never `-1`, so the BFS filter keeps every element. -/
theorem bfsFilter_eq (l : List Nat) : bfsFilter l = l := by
  refine List.filter_eq_self.mpr fun a _ => ?_
  simp [bfsCondFilter]

/-- One BFS iteration of the enactor loop (spec par.4.4): Advance with the
BFS functor, then Filter, the output becoming the next frontier. -/
def bfsIter (g : Csr) (st : BfsState) : BfsState :=
  { labels := (bfsAdvance g st.frontier st.labels st.preds).1,
    preds := (bfsAdvance g st.frontier st.labels st.preds).2.1,
    frontier := bfsFilter (bfsAdvance g st.frontier st.labels st.preds).2.2 }

/-- Modelled from the spec: the enactor iterates Advance/Filter until the
frontier is empty (spec par.4.4); `fuel` makes the loop total, and
`fuel = nodes` outlasts every level of a well-formed graph. -/
def bfsRun (g : Csr) : Nat → BfsState → BfsState
  | 0, st => st
  | fuel + 1, st =>
      if st.frontier.isEmpty then st else bfsRun g fuel (bfsIter g st)

/-- State at the start of a BFS run: `BFSProblem::DataSlice::Reset`
fills `labels` with the sentinel `MaxValue<VertexId>()-1` and `preds`
with `-2` (bfs_problem.cuh lines 169-180); the seeding of the run —
`labels[src] = 0`, `preds[src] = -1`, frontier `[src]` — is modelled from
the spec (BFS source label = 0; scenario preds[0] = -1), as the BFS
enactor reset is not under src/. -/
def bfsInit (g : Csr) (src : Nat) : BfsState :=
  { labels := fun v => if v = src then 0 else bfsSentinel false,
    preds := fun v => if v = src then -1 else -2,
    frontier := [src] }

/-- Level invariant of the BFS run after `k` iterations: vertices with
shortest distance at most `k` carry their distance as label, all other
vertices still carry the sentinel, and the frontier holds exactly the
vertices at distance `k`. -/
def BfsInv (g : Csr) (src k : Nat) (st : BfsState) : Prop :=
  (∀ v n, IsDist g src v n → n ≤ k → st.labels v = (n : Int))
  ∧ (∀ v, (∀ n, n ≤ k → ¬ IsDist g src v n) →
      st.labels v = bfsSentinel false)
  ∧ (∀ x, x ∈ st.frontier ↔ IsDist g src x k)

/-- The level invariant advances across one enactor iteration. -/
theorem bfsIter_inv (g : Csr) (src k : Nat) (hwf : g.Wf) (hsrc : src < g.nodes)
    (st : BfsState) (hinv : BfsInv g src k st) (hne : st.frontier ≠ [])
    (hn : (g.nodes : Int) < bfsSentinel false) :
    BfsInv g src (k + 1) (bfsIter g st) := by
  obtain ⟨I1, I2, I3⟩ := hinv
  obtain ⟨x, hx⟩ := List.exists_mem_of_ne_nil st.frontier hne
  have hxk : IsDist g src x k := (I3 x).mp hx
  have hkn : k < g.nodes := isDist_lt_nodes g src x k hwf hsrc hxk
  have hkInf : (k : Int) + 1 < bfsSentinel false := by
    have hc : (k : Int) + 1 ≤ (g.nodes : Int) := by exact_mod_cast hkn
    omega
  have H2 : ∀ v, st.labels v = bfsSentinel false ∨
      ∃ n, IsDist g src v n ∧ st.labels v = (n : Int) ∧ n ≤ k + 1 := by
    intro v
    by_cases hex : ∃ n, n ≤ k ∧ IsDist g src v n
    · rcases hex with ⟨n, hn1, hn2⟩
      exact Or.inr ⟨n, hn2, I1 v n hn2 hn1, by omega⟩
    · push_neg at hex
      exact Or.inl (I2 v hex)
  obtain ⟨A1, A2, A3, A4, A6⟩ := bfsAdvance_spec g src k hkInf st.frontier
    st.labels st.preds (fun s hsm => (I3 s).mp hsm) I1 H2
  have hlab : (bfsIter g st).labels
      = (bfsAdvance g st.frontier st.labels st.preds).1 := rfl
  refine ⟨?_, ?_, ?_⟩
  · intro v n hv hn1
    rcases Nat.lt_or_ge n (k + 1) with hlt | hge
    · rw [hlab]; exact A1 v n hv (by omega)
    · have hneq : n = k + 1 := by omega
      subst hneq
      rcases isDist_pred g src v k hv with ⟨u, hu, hnbv⟩
      have hmemu : u ∈ st.frontier := (I3 u).mpr hu
      rcases H2 v with hInf | ⟨m, hm, hval, hmle⟩
      · have hout := A4 v hv hInf ⟨u, hmemu, hnbv⟩
        obtain ⟨_, hval', _⟩ := A3 v hout
        rw [hlab, hval']
        push_cast
        ring
      · have hmeq : m = k + 1 := isDist_unique g src v hm hv
        subst hmeq
        rcases A2 v with h | ⟨hInf', _, _⟩
        · rw [hlab, h]; exact hval
        · exfalso
          rw [hval] at hInf'
          have hc : ((k + 1 : Nat) : Int) = (k : Int) + 1 := by push_cast; ring
          omega
  · intro v hnone
    have hInf : st.labels v = bfsSentinel false :=
      I2 v (fun n h1 => hnone n (by omega))
    rcases A2 v with h | ⟨_, _, hmem⟩
    · rw [hlab, h]; exact hInf
    · exfalso
      obtain ⟨hdist, _, _⟩ := A3 v hmem
      exact hnone (k + 1) le_rfl hdist
  · intro y
    have hfr : (bfsIter g st).frontier
        = (bfsAdvance g st.frontier st.labels st.preds).2.2 := by
      show bfsFilter _ = _
      exact bfsFilter_eq _
    rw [hfr]
    constructor
    · intro hy
      exact (A3 y hy).1
    · intro hdist
      rcases isDist_pred g src y k hdist with ⟨u, hu, hnby⟩
      have hInf : st.labels y = bfsSentinel false := by
        apply I2
        intro n hn1 hdist'
        have := isDist_unique g src y hdist' hdist
        omega
      exact A4 y hdist hInf ⟨u, (I3 u).mpr hu, hnby⟩

/-- Running the loop from an invariant state computes the shortest-path
label of every vertex whose distance the remaining fuel covers; an early
empty frontier means all remaining levels are empty. -/
theorem bfsRun_labels (g : Csr) (src : Nat) (hwf : g.Wf) (hsrc : src < g.nodes)
    (hn : (g.nodes : Int) < bfsSentinel false) :
    ∀ (fuel k : Nat) (st : BfsState), BfsInv g src k st →
      ∀ v n, IsDist g src v n → n < k + fuel →
        (bfsRun g fuel st).labels v = (n : Int) := by
  intro fuel
  induction fuel with
  | zero =>
      intro k st hinv v n hv hn1
      exact hinv.1 v n hv (by omega)
  | succ fuel ih =>
      intro k st hinv v n hv hn1
      rw [bfsRun]
      by_cases hemp : st.frontier.isEmpty
      · rw [if_pos hemp]
        have hempty : st.frontier = [] := by simpa using hemp
        have hnk : n < k := by
          by_contra hge
          push_neg at hge
          rcases isDist_chain g src n v hv k hge with ⟨u, hu⟩
          have hmem := (hinv.2.2 u).mpr hu
          rw [hempty] at hmem
          exact absurd hmem (List.not_mem_nil u)
        exact hinv.1 v n hv (by omega)
      · rw [if_neg hemp]
        have hne : st.frontier ≠ [] := by
          intro h
          rw [h] at hemp
          exact hemp rfl
        exact ih (k + 1) (bfsIter g st)
          (bfsIter_inv g src k hwf hsrc st hinv hne hn) v n hv (by omega)

/-- The initial state satisfies the level-0 invariant. -/
theorem bfsInit_inv (g : Csr) (src : Nat) : BfsInv g src 0 (bfsInit g src) := by
  refine ⟨?_, ?_, ?_⟩
  · intro v n hv hn0
    have hn' : n = 0 := by omega
    subst hn'
    have hv' := isDist_zero g src v hv
    subst hv'
    simp [bfsInit]
  · intro v hnone
    have hvs : v ≠ src := by
      intro h
      exact hnone 0 le_rfl (h ▸ isDist_src g src)
    simp [bfsInit, hvs]
  · intro y
    constructor
    · intro hy
      have hy' : y = src := by simpa [bfsInit] using hy
      rw [hy']
      exact isDist_src g src
    · intro hy
      have := isDist_zero g src y hy
      simp [bfsInit, this]

/-- The concrete scenario graph of the claim: nodes `{0,1,2,3}`, edges
`{(0,1),(1,2),(2,3)}` in CSR form. -/
def gPath4 : Csr := ⟨4, [0, 1, 2, 3, 3], [1, 2, 3]⟩

/-- C1: after a BFS run driven by `BFSFunctor` (CondEdge claiming a
destination via atomicMin on labels with value `labels[src]+1`,
ApplyEdge recording the predecessor) terminates, every vertex reachable
from the source — i.e. with a shortest-path distance `n` — has label `n`,
the length of the shortest path in unweighted edge count; in particular
on the graph with nodes `{0,1,2,3}` and edges `{(0,1),(1,2),(2,3)}` with
source 0, the labels are `[0,1,2,3]` and the predecessors `[-1,0,1,2]`. -/
theorem C1_bfs_shortest_paths :
    (∀ (g : Csr) (src v n : Nat), g.Wf → src < g.nodes →
        (g.nodes : Int) < bfsSentinel false → IsDist g src v n →
        (bfsRun g g.nodes (bfsInit g src)).labels v = (n : Int))
  ∧ (List.range 4).map (bfsRun gPath4 gPath4.nodes (bfsInit gPath4 0)).labels
      = [0, 1, 2, 3]
  ∧ (List.range 4).map (bfsRun gPath4 gPath4.nodes (bfsInit gPath4 0)).preds
      = [-1, 0, 1, 2] := by
  refine ⟨?_, by decide, by decide⟩
  intro g src v n hwf hsrc hn hdist
  have hb := isDist_lt_nodes g src v n hwf hsrc hdist
  exact bfsRun_labels g src hwf hsrc hn g.nodes 0 (bfsInit g src)
    (bfsInit_inv g src) v n hdist (by omega)

/-- C1 witness: the universal part evaluated on the scenario graph at
vertex 3, whose shortest-path distance from 0 is 3. -/
theorem C1_bfs_shortest_paths_witness :
    (bfsRun gPath4 gPath4.nodes (bfsInit gPath4 0)).labels 3 = ((3 : Nat) : Int) :=
  C1_bfs_shortest_paths.1 gPath4 0 3 3 (by decide) (by decide) (by decide)
    (by decide)
